import Mathlib

/-!
Verification of the elliptic-curve core: secp256k1 projective arithmetic
(src/k256/src/arithmetic/projective.rs) and the P-256 ECDSA layer with
public-key recovery (src/p256/src/ecdsa.rs).

Field elements, scalars and affine points are implemented in modules that are
not part of the sources under verification; following the specification, a
field element is an element of GF(p), the magnitude bookkeeping
(normalize_weak, the magnitude argument of negate) is value-preserving, and
modular inversion is Fermat exponentiation by p - 2 returning nothing on zero.
The projective formulas below are direct transcriptions of the Rust source.
-/

namespace K256

/-- The secp256k1 field prime p = 2^256 - 2^32 - 977. -/
def P : ℕ := 115792089237316195423570985008687907853269984665640564039457584007908834671663

/-- Field elements of GF(p).  Modelled from the spec: the unsaturated-limb
representation with magnitudes denotes an element of GF(p); all arithmetic
operations denote the field operations. -/
abbrev F : Type := ZMod P

/-- The secp256k1 curve coefficient b = 7 (CURVE_EQUATION_B_SINGLE). -/
def CURVE_EQUATION_B_SINGLE : ℕ := 7

/-- Modelled from the spec: FieldElement::invert, a constant-time modular
inverse via Fermat exponentiation by p - 2, returning nothing for zero. -/
def FieldElement.invert (x : F) : Option F :=
  if x = 0 then none else some (x ^ (P - 2))

/-- AffinePoint (x, y, infinity) per the spec data model; when infinity is
set the coordinates are zero so that constant-time selection is well
formed. -/
structure AffinePoint where
  x : F
  y : F
  infinity : Bool
deriving DecidableEq

/-- The affine point at infinity (coordinates zero, infinity flag set). -/
def AffinePoint.identity : AffinePoint := ⟨0, 0, true⟩

/-- ProjectivePoint (X, Y, Z) as in src/k256/src/arithmetic/projective.rs. -/
structure ProjectivePoint where
  x : F
  y : F
  z : F
deriving DecidableEq

/-- The projective identity (0, 1, 0). -/
def ProjectivePoint.identity : ProjectivePoint := ⟨0, 1, 0⟩

/-- The From conversion AffinePoint to ProjectivePoint: (x, y, 1), with a
conditional select mapping the infinity case to the projective identity. -/
def ProjectivePoint.fromAffine (a : AffinePoint) : ProjectivePoint :=
  if a.infinity then ProjectivePoint.identity else ⟨a.x, a.y, 1⟩

/-- ProjectivePoint::to_affine: compute z⁻¹; on failure (z = 0) return the
affine identity, otherwise (X·z⁻¹, Y·z⁻¹) with the infinity bit clear. -/
def ProjectivePoint.toAffine (p : ProjectivePoint) : AffinePoint :=
  match FieldElement.invert p.z with
  | none => AffinePoint.identity
  | some zinv => ⟨p.x * zinv, p.y * zinv, false⟩

/-- ProjectivePoint::add, the complete addition formula
(Renes-Costello-Batina 2015, Algorithm 7), transcribed operation by
operation from the Rust source; negate and normalize_weak act on values as
negation and the identity. -/
def ProjectivePoint.add (p q : ProjectivePoint) : ProjectivePoint :=
  let xx := p.x * q.x
  let yy := p.y * q.y
  let zz := p.z * q.z
  let n_xx_yy := -(xx + yy)
  let n_yy_zz := -(yy + zz)
  let n_xx_zz := -(xx + zz)
  let xy_pairs := (p.x + p.y) * (q.x + q.y) + n_xx_yy
  let yz_pairs := (p.y + p.z) * (q.y + q.z) + n_yy_zz
  let xz_pairs := (p.x + p.z) * (q.x + q.z) + n_xx_zz
  let bzz := (CURVE_EQUATION_B_SINGLE : F) * zz
  let bzz3 := (bzz + bzz) + bzz
  let yy_m_bzz3 := yy + -bzz3
  let yy_p_bzz3 := yy + bzz3
  let byz := (CURVE_EQUATION_B_SINGLE : F) * yz_pairs
  let byz3 := (byz + byz) + byz
  let xx3 := (xx + xx) + xx
  let bxx9 := (CURVE_EQUATION_B_SINGLE : F) * ((xx3 + xx3) + xx3)
  ⟨xy_pairs * yy_m_bzz3 + -(byz3 * xz_pairs),
   yy_p_bzz3 * yy_m_bzz3 + bxx9 * xz_pairs,
   yz_pairs * yy_p_bzz3 + xx3 * xy_pairs⟩

/-- ProjectivePoint::double (Renes-Costello-Batina 2015, Algorithm 9),
transcribed operation by operation from the Rust source. -/
def ProjectivePoint.double (p : ProjectivePoint) : ProjectivePoint :=
  let yy := p.y * p.y
  let zz := p.z * p.z
  let xy2 := (p.x * p.y) + (p.x * p.y)
  let bzz := (CURVE_EQUATION_B_SINGLE : F) * zz
  let bzz3 := (bzz + bzz) + bzz
  let bzz9 := (bzz3 + bzz3) + bzz3
  let yy_m_bzz9 := yy + -bzz9
  let yy_p_bzz3 := yy + bzz3
  let yy_zz := yy * zz
  let yy_zz2 := yy_zz + yy_zz
  let yy_zz4 := yy_zz2 + yy_zz2
  let yy_zz8 := yy_zz4 + yy_zz4
  let t := (CURVE_EQUATION_B_SINGLE : F) * ((yy_zz8 + yy_zz8) + yy_zz8)
  let z1 := (yy * p.y) * p.z
  let z2 := z1 + z1
  let z4 := z2 + z2
  let z8 := z4 + z4
  ⟨xy2 * yy_m_bzz9,
   yy_m_bzz9 * yy_p_bzz3 + t,
   z8⟩

/-- A projective representative lies on secp256k1 (y² = x³ + 7 in affine
form) iff the homogeneous equation Y²·Z = X³ + 7·Z³ holds; it is scaling
invariant and holds for the identity (0, 1, 0) and every representative the
group operations produce. -/
def ProjectivePoint.onCurve (p : ProjectivePoint) : Prop :=
  p.y ^ 2 * p.z = p.x ^ 3 + 7 * p.z ^ 3

end K256

namespace P256

/-!
The ECDSA layer of src/p256/src/ecdsa.rs.  The P-256 arithmetic backend
(Scalar, AffinePoint, ProjectivePoint) is not among the sources, so it is
modelled from the spec: Scalar is ℤ/n for the group order n; the curve group
has prime order n with cofactor 1, hence is cyclic of order n, and we model
it as ZMod n with the generator G as 1, scalar multiplication as
multiplication and point addition as addition.  The composite map sending a
point to the scalar reduction of the byte serialization of its affine
x-coordinate is kept as an abstract parameter xcoord; the affine identity
serializes to zero, which appears as the hypothesis xcoord 0 = 0 where
needed.  The development is parametric in n; the concrete P-256 order
(whose primality is a standard fact outside the scope of this file) is
p256Order below.
-/

/-- The order n of the P-256 group (FIPS 186-4); prime, cofactor 1. -/
def p256Order : ℕ :=
  115792089210356248762697446949407573529996955224135760342422259061068512044369

section

variable (n : ℕ)

/-- Modelled from the spec: the generator G of the order-n point group,
which is 1 under the isomorphism with ZMod n. -/
def generator : ZMod n := 1

/-- Modelled from the spec: Scalar::invert, modular inversion by Fermat
exponentiation (n - 2), returning nothing for zero. -/
def Scalar.invert (x : ZMod n) : Option (ZMod n) :=
  if x = 0 then none else some (x ^ (n - 2))

/-- An ECDSA signature: the pair (r, s) of scalars.  The constructor
from_scalars below enforces the invariant r, s ∈ [1, n-1]. -/
structure Signature (n : ℕ) where
  r : ZMod n
  s : ZMod n
deriving DecidableEq

/-- Modelled from the spec: Signature::from_scalars of the ecdsa-core
dependency, which rejects a zero r or s (signature scalars lie in
[1, n-1]). -/
def Signature.from_scalars (r s : ZMod n) : Except Unit (Signature n) :=
  if r = 0 ∨ s = 0 then Except.error () else Except.ok ⟨r, s⟩

/-- SignPrimitive::try_sign_prehashed for P-256, transcribed from the Rust
source: invert the nonce k (error when absent or k zero), take the scalar
reduction of the affine x-coordinate of k·G as r, form
s = k⁻¹·(z + r·d), error when s is zero, and build the signature via
from_scalars. -/
def try_sign_prehashed (xcoord : ZMod n → ZMod n) (d k z : ZMod n) :
    Except Unit (Signature n) :=
  match Scalar.invert n k with
  | none => Except.error ()
  | some k_inverse =>
    if k = 0 then Except.error ()
    else
      let x := xcoord (k * generator n)
      let r := x
      let s := k_inverse * (z + r * d)
      if s = 0 then Except.error ()
      else Signature.from_scalars n r s

/-- The signing routine as the claim states it: reject k = 0 (equivalently,
non-invertible k), set r to the scalar reduction of the x-coordinate of
k·G, reject r = 0, set s = k⁻¹·(z + r·d), reject s = 0, else return
(r, s).  Stated with the true field inverse k⁻¹; compared against the
transcribed try_sign_prehashed. -/
def signSpec (xcoord : ZMod n → ZMod n) (d k z : ZMod n) :
    Except Unit (Signature n) :=
  if k = 0 then Except.error ()
  else
    let r := xcoord (k * generator n)
    if r = 0 then Except.error ()
    else
      let s := k⁻¹ * (z + r * d)
      if s = 0 then Except.error () else Except.ok ⟨r, s⟩

/-- VerifyPrimitive::verify_prehashed for P-256, transcribed from the Rust
source.  The result is wrapped in Option: none models the panic of the
unwrap on s.invert(), some carries the Ok/Err verification outcome. -/
def verify_prehashed (xcoord : ZMod n → ZMod n) (q z : ZMod n)
    (sig : Signature n) : Option (Except Unit Unit) :=
  match Scalar.invert n sig.s with
  | none => none
  | some s_inv =>
    let u1 := z * s_inv
    let u2 := sig.r * s_inv
    let x := xcoord (u1 * generator n + u2 * q)
    some (if x = sig.r then Except.ok () else Except.error ())

/-- The state of the active PKRecover iterator: the signature scalars r and
s, the hashed message e, the counter j and the sign-toggle bit. -/
structure PKState (n : ℕ) where
  r : ZMod n
  s : ZMod n
  e : ZMod n
  j : ZMod n
  invert : Bool
deriving DecidableEq

/-- The candidate x-coordinate computed by PKRecover::next:
r + j·Scalar(MODULUS), evaluated in scalar arithmetic, so the constant
Scalar(MODULUS) contributes n mod n = 0. -/
def candidateX (r j : ZMod n) : ZMod n := r + j * (n : ZMod n)

/-- Outcome of one call to PKRecover::next: a normal return (a candidate
point plus successor state, or the end of iteration), a crash (the panic of
an unwrap), or spin when the modelling fuel runs out (never reached, see
the finiteness theorem). -/
inductive NextRes (n : ℕ) where
  | out : Option (ZMod n × PKState n) → NextRes n
  | crash : NextRes n
  | spin : NextRes n
deriving DecidableEq

/-- The while loop of PKRecover::next, transcribed from the Rust source:
while j ≤ h (= 1) take x = r + j·n, decompress it with even-y sign (the
unwrap panics when decompression fails, modelled by crash), negate the
point and advance j on the second visit, and return the candidate
(s·R - e·G)·r⁻¹ whenever n·R is the identity.  decomp is the spec-modelled
composite of the scalar-to-field conversion and AffinePoint::decompress
with even y, producing a group element. -/
def pkLoop (decomp : ZMod n → Option (ZMod n)) (rinv : ZMod n) :
    ℕ → PKState n → NextRes n
  | 0, _ => NextRes.spin
  | Nat.succ fuel, st =>
    if st.j.val ≤ 1 then
      match decomp (candidateX n st.r st.j) with
      | none => NextRes.crash
      | some R0 =>
        let R : ZMod n := if st.invert then -R0 else R0
        let st' : PKState n :=
          if st.invert then ⟨st.r, st.s, st.e, st.j + 1, false⟩
          else ⟨st.r, st.s, st.e, st.j, true⟩
        if (n • R : ZMod n) = 0 then
          NextRes.out (some ((st.s * R - st.e * generator n) * rinv, st'))
        else pkLoop decomp rinv fuel st'
    else NextRes.out none

/-- PKRecover::next: compute r⁻¹ by invert_vartime (the unwrap panics for a
zero r, modelled by crash; r is a NonZeroScalar in the source) and run the
loop.  Fuel 4 is enough for the loop, see the finiteness theorem. -/
def pkNext (decomp : ZMod n → Option (ZMod n)) (st : PKState n) : NextRes n :=
  match Scalar.invert n st.r with
  | none => NextRes.crash
  | some rinv => pkLoop n decomp rinv 4 st

/-- Recoverable::candidate_verify_keys for Signature: builds the PKRecover
state from the signature scalars, the hashed message and the initial j,
with the sign-toggle bit clear. -/
def Signature.candidate_verify_keys (sig : Signature n)
    (hashed_msg initial_j : ZMod n) : PKState n :=
  ⟨sig.r, sig.s, hashed_msg, initial_j, false⟩

/-- The state of the inactive VerifyKeyRecoverIter (its commented-out body
aside, only the stub next below remains in the source). -/
structure VKState (n : ℕ) where
  r : ZMod n
  s : ZMod n
  e : ZMod n
  j : ZMod n
  invert : Bool

/-- VerifyKeyRecoverIter::next as compiled in the source: it ignores its
state and returns None. -/
def vkNext (_ : VKState n) : Option (ZMod n) := none

/-- One emission step of the PKRecover iterator: from state st, next
returns a candidate and the successor state st'. -/
def EmitStep (decomp : ZMod n → Option (ZMod n)) (st st' : PKState n) : Prop :=
  ∃ q, pkNext n decomp st = NextRes.out (some (q, st'))

/-- Progress measure on PKRecover states: grows with j (capped at 2) and
with the sign-toggle bit. -/
def mu (st : PKState n) : ℕ :=
  2 * min st.j.val 2 + (if st.invert then 1 else 0)

end

/-- A concrete five-element instantiation of the spec-modelled recovery
primitives, used to evaluate the iterator on explicit inputs: every
candidate x decompresses to the group element with the same name. -/
def decompAll : ZMod 5 → Option (ZMod 5) := fun x => some x

/-- A concrete instantiation in which no candidate x decompresses (no
square root exists), used to evaluate the decompression-failure path. -/
def decompNone : ZMod 5 → Option (ZMod 5) := fun _ => none

end P256

namespace K256

theorem add_self_coords_eq_double (p : ProjectivePoint) (h : p.onCurve) :
    p.add p = p.double := by
  obtain ⟨x, y, z⟩ := p
  simp only [ProjectivePoint.onCurve] at h
  simp only [ProjectivePoint.add, ProjectivePoint.double, CURVE_EQUATION_B_SINGLE,
    ProjectivePoint.mk.injEq]
  refine ⟨by ring, ?_, ?_⟩
  · linear_combination (-126 * z) * h
  · linear_combination (-6 * y) * h

/-- Claim C8: for every projective point (every representative satisfying the
curve equation), doubling agrees with self-addition: P.add(P) and P.double()
are the same point after conversion to affine form. -/
theorem double_matches_add (p : ProjectivePoint) (h : p.onCurve) :
    (p.add p).toAffine = p.double.toAffine := by
  rw [add_self_coords_eq_double p h]

theorem double_matches_add_witness :
    ProjectivePoint.onCurve ⟨0, 1, 0⟩ ∧
      (ProjectivePoint.add ⟨0, 1, 0⟩ ⟨0, 1, 0⟩).toAffine =
        (ProjectivePoint.double ⟨0, 1, 0⟩).toAffine :=
  ⟨by unfold ProjectivePoint.onCurve; decide,
   double_matches_add ⟨0, 1, 0⟩ (by unfold ProjectivePoint.onCurve; decide)⟩

/-- Claim C9: converting an affine point (whose coordinates are zero whenever
the infinity flag is set, as the representation invariant requires) to
projective form and back with to_affine returns the same point; moreover
to_affine yields the affine identity exactly when Z = 0 and otherwise
(X·z⁻¹, Y·z⁻¹) with the infinity bit clear, z⁻¹ being the Fermat inverse. -/
theorem projective_affine_round_trip :
    (∀ a : AffinePoint, (a.infinity = true → a.x = 0 ∧ a.y = 0) →
      (ProjectivePoint.fromAffine a).toAffine = a) ∧
    (∀ p : ProjectivePoint, p.z = 0 → p.toAffine = AffinePoint.identity) ∧
    (∀ p : ProjectivePoint, p.z ≠ 0 →
      p.toAffine = ⟨p.x * p.z ^ (P - 2), p.y * p.z ^ (P - 2), false⟩) := by
  refine ⟨?_, ?_, ?_⟩
  · rintro ⟨x, y, inf⟩ hinv
    cases inf with
    | true =>
      obtain ⟨hx, hy⟩ := hinv rfl
      subst hx; subst hy
      simp [ProjectivePoint.fromAffine, ProjectivePoint.toAffine,
        ProjectivePoint.identity, FieldElement.invert, AffinePoint.identity]
    | false =>
      have h1 : (1 : F) ≠ 0 := by decide
      simp [ProjectivePoint.fromAffine, ProjectivePoint.toAffine,
        FieldElement.invert, h1]
  · intro p hz
    simp [ProjectivePoint.toAffine, FieldElement.invert, hz]
  · intro p hz
    simp [ProjectivePoint.toAffine, FieldElement.invert, hz]

theorem projective_affine_round_trip_witness :
    (ProjectivePoint.fromAffine ⟨0, 0, true⟩).toAffine = ⟨0, 0, true⟩ :=
  projective_affine_round_trip.1 ⟨0, 0, true⟩ (by decide)

end K256

namespace P256

theorem mul_pow_sub_two {n : ℕ} [Fact n.Prime] {k : ZMod n} (hk : k ≠ 0) :
    k * k ^ (n - 2) = 1 := by
  have h2 : 2 ≤ n := (Fact.out (p := n.Prime)).two_le
  have h1 : k ^ (n - 1) = 1 := ZMod.pow_card_sub_one_eq_one hk
  calc k * k ^ (n - 2) = k ^ (n - 2 + 1) := by rw [pow_succ]; ring
    _ = k ^ (n - 1) := by congr 1; omega
    _ = 1 := h1

theorem pow_sub_two_eq_inv {n : ℕ} [Fact n.Prime] {k : ZMod n} (hk : k ≠ 0) :
    k ^ (n - 2) = k⁻¹ :=
  eq_inv_of_mul_eq_one_left (by rw [mul_comm]; exact mul_pow_sub_two hk)

theorem of_try_sign_ok {n : ℕ} {xcoord : ZMod n → ZMod n} {d k z : ZMod n}
    {sig : Signature n}
    (h : try_sign_prehashed n xcoord d k z = Except.ok sig) :
    k ≠ 0 ∧ sig.r = xcoord (k * generator n) ∧
      sig.s = k ^ (n - 2) * (z + xcoord (k * generator n) * d) ∧
      sig.r ≠ 0 ∧ sig.s ≠ 0 := by
  by_cases hk : k = 0
  · simp [try_sign_prehashed, Scalar.invert, hk] at h
  · simp only [try_sign_prehashed, Scalar.invert, if_neg hk,
      Signature.from_scalars] at h
    by_cases h1 : k ^ (n - 2) * (z + xcoord (k * generator n) * d) = 0
    · rw [if_pos h1] at h
      exact absurd h (by simp)
    · rw [if_neg h1] at h
      by_cases h2 : xcoord (k * generator n) = 0
      · rw [if_pos (Or.inl h2)] at h
        exact absurd h (by simp)
      · rw [if_neg (not_or.mpr ⟨h2, h1⟩)] at h
        obtain ⟨sr, ss⟩ := sig
        simp only [Except.ok.injEq, Signature.mk.injEq] at h
        obtain ⟨hr, hs⟩ := h
        exact ⟨hk, hr.symm, hs.symm, hr ▸ h2, hs ▸ h1⟩

/-- Claim C1: for every secret scalar d ≠ 0, nonce k ≠ 0 and message scalar
z such that try_sign_prehashed d k z returns a signature (r, s),
verify_prehashed on the public key d·G with the same z accepts the
signature. -/
theorem ecdsa_sign_verify (n : ℕ) [Fact n.Prime] (xcoord : ZMod n → ZMod n)
    (d k z : ZMod n) (sig : Signature n) (_hd : d ≠ 0)
    (h : try_sign_prehashed n xcoord d k z = Except.ok sig) :
    verify_prehashed n xcoord (d * generator n) z sig =
      some (Except.ok ()) := by
  obtain ⟨hk, hr, hs, hrne, hsne⟩ := of_try_sign_ok h
  simp only [generator, mul_one] at hr hs ⊢
  have h2 : sig.s * sig.s ^ (n - 2) = 1 := mul_pow_sub_two hsne
  have h3 : z + sig.r * d = k * sig.s := by
    rw [hs, hr]
    calc z + xcoord k * d
        = 1 * (z + xcoord k * d) := (one_mul _).symm
      _ = (k * k ^ (n - 2)) * (z + xcoord k * d) := by rw [mul_pow_sub_two hk]
      _ = k * (k ^ (n - 2) * (z + xcoord k * d)) := by ring
  have hX : z * sig.s ^ (n - 2) + sig.r * sig.s ^ (n - 2) * d = k := by
    calc z * sig.s ^ (n - 2) + sig.r * sig.s ^ (n - 2) * d
        = (z + sig.r * d) * sig.s ^ (n - 2) := by ring
      _ = (k * sig.s) * sig.s ^ (n - 2) := by rw [h3]
      _ = k * (sig.s * sig.s ^ (n - 2)) := by ring
      _ = k * 1 := by rw [h2]
      _ = k := mul_one k
  simp only [verify_prehashed, Scalar.invert, if_neg hsne, generator, mul_one]
  rw [hX, ← hr]
  simp

/-- Claim C2: try_sign_prehashed agrees with the claimed signing routine: an
error when the nonce k is zero (equivalently, non-invertible), otherwise
the pair (r, s) with r the scalar reduction of the affine x-coordinate of
k·G and s = k⁻¹·(z + r·d), an error replacing a zero r or a zero s. -/
theorem sign_matches_spec (n : ℕ) [Fact n.Prime] (xcoord : ZMod n → ZMod n)
    (d k z : ZMod n) :
    try_sign_prehashed n xcoord d k z = signSpec n xcoord d k z := by
  by_cases hk : k = 0
  · simp [try_sign_prehashed, signSpec, Scalar.invert, hk]
  · have hinv : k ^ (n - 2) = k⁻¹ := pow_sub_two_eq_inv hk
    simp only [try_sign_prehashed, signSpec, Scalar.invert,
      Signature.from_scalars, if_neg hk, hinv]
    by_cases hr : xcoord (k * generator n) = 0
    · rw [if_pos hr]
      by_cases hs : k⁻¹ * (z + xcoord (k * generator n) * d) = 0
      · rw [if_pos hs]
      · rw [if_neg hs, if_pos (Or.inl hr)]
    · by_cases hs : k⁻¹ * (z + xcoord (k * generator n) * d) = 0
      · rw [if_pos hs, if_neg hr, if_pos hs]
      · rw [if_neg hs, if_neg (not_or.mpr ⟨hr, hs⟩), if_neg hr, if_neg hs]

/-- Claim C3: for a public key Q, message scalar z and signature (r, s)
with nonzero r, s, verify_prehashed forms u₁ = z·s⁻¹ and u₂ = r·s⁻¹ and,
writing X = u₁·G + u₂·Q, rejects when X is the identity and otherwise
accepts exactly when the scalar reduction of the affine x-coordinate of X
equals r (the identity's x-coordinate reduces to zero: xcoord 0 = 0). -/
theorem verify_characterization (n : ℕ) [Fact n.Prime]
    (xcoord : ZMod n → ZMod n) (hx0 : xcoord 0 = 0) (q z : ZMod n)
    (sig : Signature n) (hr : sig.r ≠ 0) (hs : sig.s ≠ 0) :
    (z * sig.s⁻¹ * generator n + sig.r * sig.s⁻¹ * q = 0 →
       verify_prehashed n xcoord q z sig = some (Except.error ())) ∧
    (z * sig.s⁻¹ * generator n + sig.r * sig.s⁻¹ * q ≠ 0 →
       (verify_prehashed n xcoord q z sig = some (Except.ok ()) ↔
         xcoord (z * sig.s⁻¹ * generator n + sig.r * sig.s⁻¹ * q) = sig.r)) := by
  have hinv : sig.s ^ (n - 2) = sig.s⁻¹ := pow_sub_two_eq_inv hs
  simp only [verify_prehashed, Scalar.invert, if_neg hs, hinv]
  constructor
  · intro hX
    rw [hX, hx0, if_neg (Ne.symm hr)]
  · intro hX
    constructor
    · intro h
      by_contra hne
      rw [if_neg hne] at h
      simp at h
    · intro h
      rw [if_pos h]

/-- Claim C10: verify_prehashed is total: for a signature whose s component
is nonzero (the NonZeroScalar invariant of the Signature type), the unwrap
of s.invert() succeeds, so verification always reaches a verdict. -/
theorem verify_total (n : ℕ) (xcoord : ZMod n → ZMod n) (q z : ZMod n)
    (sig : Signature n) (hs : sig.s ≠ 0) :
    (verify_prehashed n xcoord q z sig).isSome = true := by
  simp [verify_prehashed, Scalar.invert, if_neg hs]

theorem ecdsa_sign_verify_witness :
    verify_prehashed 5 (fun a => a) (1 * generator 5) 1 ⟨1, 2⟩ =
      some (Except.ok ()) := by
  have hd : (1 : ZMod 5) ≠ 0 := by decide
  have hsig : try_sign_prehashed 5 (fun a => a) 1 1 1 = Except.ok ⟨1, 2⟩ := by
    rfl
  haveI : Fact (Nat.Prime 5) := ⟨by norm_num⟩
  exact ecdsa_sign_verify 5 (fun a => a) 1 1 1 ⟨1, 2⟩ hd hsig

/-- Claim C4 (divergence witness): the candidate x-coordinate computed by
PKRecover::next is r + j·Scalar(MODULUS) in scalar arithmetic modulo n, and
the order constant reduces to zero, so the computed x equals r for every j;
the integer r + j·n in the base field is never formed. -/
theorem candidateX_const (n : ℕ) (r j : ZMod n) : candidateX n r j = r := by
  unfold candidateX
  rw [ZMod.natCast_self, mul_zero, add_zero]

/-- Claim C6 (divergence witness): when decompression of the candidate x
fails (the x-coordinate is not on the curve), PKRecover::next panics on the
unwrap instead of skipping silently: evaluated in the concrete model with a
failing decompression, next crashes at once. -/
theorem pkNext_crash_on_bad_x :
    pkNext 5 decompNone ⟨1, 1, 0, 0, false⟩ = NextRes.crash := by decide

/-- Claim C5 (counterexample): candidate_verify_keys yields a PKRecover
iterator, and a call to its next on a concrete state returns Some, not
None: the first candidate (s·R - e·G)·r⁻¹ is emitted. -/
theorem candidate_keys_next_some :
    pkNext 5 decompAll (Signature.candidate_verify_keys 5 ⟨1, 2⟩ 0 0) =
      NextRes.out (some (2, ⟨1, 2, 0, 0, true⟩)) := by decide

/-- Claim C5 (amended): the defective VerifyKeyRecoverIter::next compiled in
the source always returns None; the iterator candidate_verify_keys actually
hands out is a PKRecover, whose next can return Some. -/
theorem vkNext_always_none (n : ℕ) (st : VKState n) : vkNext n st = none :=
  rfl

theorem nsmul_zmod (n : ℕ) (x : ZMod n) : (n • x : ZMod n) = 0 := by
  rw [nsmul_eq_mul, ZMod.natCast_self, zero_mul]

theorem pkLoop_succ (n : ℕ) (decomp : ZMod n → Option (ZMod n))
    (rinv : ZMod n) (f : ℕ) (st : PKState n) :
    pkLoop n decomp rinv (f + 1) st =
      if st.j.val ≤ 1 then
        match decomp (candidateX n st.r st.j) with
        | none => NextRes.crash
        | some R0 =>
          let R : ZMod n := if st.invert then -R0 else R0
          let st' : PKState n :=
            if st.invert then ⟨st.r, st.s, st.e, st.j + 1, false⟩
            else ⟨st.r, st.s, st.e, st.j, true⟩
          if (n • R : ZMod n) = 0 then
            NextRes.out (some ((st.s * R - st.e * generator n) * rinv, st'))
          else pkLoop n decomp rinv f st'
      else NextRes.out none := rfl

theorem pkLoop_fuel_eq (n : ℕ) (decomp : ZMod n → Option (ZMod n))
    (rinv : ZMod n) (st : PKState n) (fuel : ℕ) (h : 1 ≤ fuel) :
    pkLoop n decomp rinv fuel st = pkLoop n decomp rinv 1 st := by
  obtain ⟨f, rfl⟩ : ∃ f, fuel = f + 1 := ⟨fuel - 1, by omega⟩
  rw [pkLoop_succ n decomp rinv f st,
    show (1 : ℕ) = 0 + 1 from rfl, pkLoop_succ n decomp rinv 0 st]
  by_cases hj : st.j.val ≤ 1
  · rw [if_pos hj, if_pos hj]
    cases hd : decomp (candidateX n st.r st.j) with
    | none => rfl
    | some R0 => simp [nsmul_zmod]
  · rw [if_neg hj, if_neg hj]

theorem emit_step_mu {n : ℕ} (hn : 2 < n) {decomp : ZMod n → Option (ZMod n)}
    {st st' : PKState n} (h : EmitStep n decomp st st') :
    mu n st ≤ 3 ∧ mu n st < mu n st' := by
  haveI : NeZero n := ⟨by omega⟩
  haveI : Fact (1 < n) := ⟨by omega⟩
  obtain ⟨q, hq⟩ := h
  unfold pkNext at hq
  cases hsr : Scalar.invert n st.r with
  | none => rw [hsr] at hq; exact absurd hq (by simp)
  | some rinv =>
    rw [hsr] at hq
    have hq2 : pkLoop n decomp rinv 4 st = NextRes.out (some (q, st')) := hq
    clear hq
    rw [show (4 : ℕ) = 3 + 1 from rfl,
      pkLoop_succ n decomp rinv 3 st] at hq2
    rename' hq2 => hq
    by_cases hj : st.j.val ≤ 1
    · rw [if_pos hj] at hq
      cases hd : decomp (candidateX n st.r st.j) with
      | none => rw [hd] at hq; exact absurd hq (by simp)
      | some R0 =>
        rw [hd] at hq
        simp only [nsmul_zmod, eq_self_iff_true, if_true] at hq
        cases hb : st.invert with
        | true =>
          have hval : (st.j + 1).val = st.j.val + 1 := by
            rw [ZMod.val_add, ZMod.val_one, Nat.mod_eq_of_lt]
            omega
          simp only [hb, if_true, NextRes.out.injEq, Option.some.injEq,
            Prod.mk.injEq] at hq
          obtain ⟨-, hst⟩ := hq
          subst hst
          unfold mu
          simp only [hb, if_true, hval]
          have hmin : min st.j.val 2 = st.j.val := by omega
          have hmin2 : min (st.j.val + 1) 2 = st.j.val + 1 := by omega
          simp only [hmin, hmin2]
          omega
        | false =>
          simp only [hb, if_false, Bool.false_eq_true, NextRes.out.injEq,
            Option.some.injEq, Prod.mk.injEq] at hq
          obtain ⟨-, hst⟩ := hq
          subst hst
          unfold mu
          simp only [hb, if_false, Bool.false_eq_true, if_true]
          have hmin : min st.j.val 2 = st.j.val := by omega
          simp only [hmin]
          omega
    · rw [if_neg hj] at hq
      exact absurd hq (by simp)

/-- Claim C7: the recovery iterator is finite: each call to next needs a
bounded amount of loop fuel (one unit beyond the first suffices, so every
call terminates), and any chain of consecutive emissions has length at most
4 = 2·(h+1) with cofactor h = 1. -/
theorem pkRecover_finite (n : ℕ) (hn : 2 < n)
    (decomp : ZMod n → Option (ZMod n)) :
    (∀ (st : PKState n) (rinv : ZMod n) (fuel : ℕ), 1 ≤ fuel →
        pkLoop n decomp rinv fuel st = pkLoop n decomp rinv 1 st) ∧
    (∀ (f : ℕ → PKState n) (k : ℕ),
        (∀ i, i < k → EmitStep n decomp (f i) (f (i + 1))) → k ≤ 4) := by
  constructor
  · intro st rinv fuel h
    exact pkLoop_fuel_eq n decomp rinv st fuel h
  · intro f k hchain
    by_contra hgt
    push_neg at hgt
    have mono : ∀ i, i ≤ k → i ≤ mu n (f i) := by
      intro i
      induction i with
      | zero => intro _; exact Nat.zero_le _
      | succ i ih =>
        intro hik
        have h1 := emit_step_mu hn (hchain i (by omega))
        have h2 := ih (by omega)
        omega
    have h4 := emit_step_mu hn (hchain 4 (by omega))
    have h6 := mono 4 (by omega)
    omega

theorem pkRecover_finite_witness :
    pkLoop 5 decompAll 1 3 ⟨1, 1, 0, 0, false⟩ =
      pkLoop 5 decompAll 1 1 ⟨1, 1, 0, 0, false⟩ :=
  (pkRecover_finite 5 (by norm_num) decompAll).1 ⟨1, 1, 0, 0, false⟩ 1 3
    (by norm_num)

theorem sign_matches_spec_witness :
    try_sign_prehashed 5 (fun a => a) 1 2 3 = signSpec 5 (fun a => a) 1 2 3 := by
  haveI : Fact (Nat.Prime 5) := ⟨by norm_num⟩
  exact sign_matches_spec 5 (fun a => a) 1 2 3

theorem verify_characterization_witness :
    ((1 : ZMod 5) * (2 : ZMod 5)⁻¹ * generator 5 +
        (1 : ZMod 5) * (2 : ZMod 5)⁻¹ * 0 = 0 →
      verify_prehashed 5 (fun a => a) 0 1 ⟨1, 2⟩ = some (Except.error ())) ∧
    ((1 : ZMod 5) * (2 : ZMod 5)⁻¹ * generator 5 +
        (1 : ZMod 5) * (2 : ZMod 5)⁻¹ * 0 ≠ 0 →
      (verify_prehashed 5 (fun a => a) 0 1 ⟨1, 2⟩ = some (Except.ok ()) ↔
        (fun a => a)
            ((1 : ZMod 5) * (2 : ZMod 5)⁻¹ * generator 5 +
              (1 : ZMod 5) * (2 : ZMod 5)⁻¹ * 0) = (1 : ZMod 5))) := by
  have hr : (1 : ZMod 5) ≠ 0 := by decide
  have hs : (2 : ZMod 5) ≠ 0 := by decide
  haveI : Fact (Nat.Prime 5) := ⟨by norm_num⟩
  exact verify_characterization 5 (fun a => a) rfl 0 1 ⟨1, 2⟩ hr hs

theorem verify_total_witness :
    (verify_prehashed 5 (fun a => a) 0 1 ⟨1, 2⟩).isSome = true :=
  verify_total 5 (fun a => a) 0 1 ⟨1, 2⟩ (by decide)

end P256
